import Mathlib

/-!
Shallow embedding of the classification-and-styling engine of
`src/python/infra_hex_py/viz.py`: the Jenks natural-breaks solver
`jenks_breaks` (lines 19-91) and the per-feature `style_function`
(lines 165-175) of `create_hex_grid_map`.

Python floats are modelled as exact rationals (`ℚ`); the `np.inf`
sentinel in the `min_within_class_variance` table is modelled as `⊤`
in `WithTop ℚ` (IEEE `inf` comparison and `inf + x = inf` agree with
the `WithTop` order and addition on the values that occur here; no
`NaN` can arise since only finite sums, products and divisions by a
positive count are formed).  Fallible behaviour (the out-of-bounds
table write `min_within_class_variance[1, 1] = 0` when the table has
fewer than two columns, i.e. `n_classes < 1`) is modelled with
`Option`: `none` is the raised `IndexError`.
-/

/-- Element of `sv` at 1-based position `i` (`0` when out of range;
all uses proved in range). Mirrors `sorted_values[i - 1]` with the
source's 1-based index conventions. -/
def valAt (sv : List ℚ) (i : ℕ) : ℚ := sv.getD (i - 1) 0

/-- Python list indexing: a negative index counts from the end of the
list, so `pyGet sv (-1)` is the last element (`sorted_values[-1]`). -/
def pyGet (sv : List ℚ) (i : ℤ) : ℚ :=
  if i < 0 then sv.getD (sv.length - (-i).toNat) 0 else sv.getD i.toNat 0

/-- Python row indexing into a table with `n + 1` rows (row `-1` is
row `n`).  The backtrack loop stores `backtrack_end` as a Python int
that could in principle be negative, and row lookups would then wrap. -/
def pyRow (n : ℕ) (e : ℤ) : ℕ := if e < 0 then ((n : ℤ) + 1 + e).toNat else e.toNat

/-- Final value of `running_sum` for the 1-based segment `[s..i]`
(viz.py line 61): the sum of `sorted_values[s-1 .. i-1]`. -/
def segSum (sv : List ℚ) (s i : ℕ) : ℚ :=
  ((List.range' s (i + 1 - s)).map (valAt sv)).sum

/-- Final value of `running_sum_squares` for the segment `[s..i]`
(viz.py line 60). -/
def segSumSq (sv : List ℚ) (s i : ℕ) : ℚ :=
  ((List.range' s (i + 1 - s)).map (fun t => valAt sv t * valAt sv t)).sum

/-- `segment_variance` for the segment `[s..i]` (viz.py lines 64-66):
`running_sum_squares - running_sum * running_sum / segment_count`,
with `segment_count = i + 1 - s`. -/
def segVar (sv : List ℚ) (s i : ℕ) : ℚ :=
  segSumSq sv s i - segSum sv s i * segSum sv s i / ((i + 1 - s : ℕ) : ℚ)

/-- One candidate test of the inner loop (viz.py lines 70-76) for the
cell `(end_idx, class_idx) = (i, ·)` at segment start `s`:
`candidate = segment_variance + min_within_class_variance[s-1, class_idx-1]`
and the state `(min_within_class_variance[i, ·], class_start_index[i, ·])`
is replaced whenever the current minimum is `>=` the candidate. -/
def scanStep (sv : List ℚ) (prev : ℕ → WithTop ℚ) (i : ℕ)
    (st : WithTop ℚ × ℕ) (s : ℕ) : WithTop ℚ × ℕ :=
  let candidate : WithTop ℚ := (segVar sv s i : ℚ) + prev (s - 1)
  if st.1 ≥ candidate then (candidate, s) else st

/-- State of the cell `(i, class_idx)` after the first `t` iterations
of the `segment_len` loop (viz.py line 52): iteration `t + 1` has
`segment_len = t + 1`, hence `segment_start = i - t`.  The cell starts
at `(np.inf, 0)` from the table initialisation (lines 42-43).  The
iteration with `segment_start = 1` performs no update on columns
`class_idx ≥ 2` (the `segment_start > 1` guard, line 68), so the cell
value is `scanUpto … (i - 1)`. -/
def scanUpto (sv : List ℚ) (prev : ℕ → WithTop ℚ) (i : ℕ) : ℕ → WithTop ℚ × ℕ
  | 0 => (⊤, 0)
  | t + 1 => scanStep sv prev i (scanUpto sv prev i t) (i - t)

/-- Final contents of the DP tables of `jenks_breaks` at row `i`,
column `j`: the pair
`(min_within_class_variance[i, j], class_start_index[i, j])`.
Row 0 and column 0 keep their initialisation `(np.inf, 0)`;
`[1, 1]` is the base case `0` set on line 44 (its class start is never
written); column 1 rows `i ≥ 2` end as the variance of the full prefix
`[1..i]` with class start 1 (lines 78-79, last executed with
`segment_start = 1`); rows `i ≥ 2`, columns `j ≥ 2` are the result of
the scan (lines 68-76).  Cells on distinct rows of the same column are
independent because an update of `(i, j)` reads only row `s - 1 ≤ i - 1`
of column `j - 1`, which is final when row `i` is processed. -/
def dpCell (sv : List ℚ) : ℕ → ℕ → WithTop ℚ × ℕ
  | _, 0 => (⊤, 0)
  | i, 1 =>
    if i = 0 then (⊤, 0)
    else if i = 1 then ((0 : ℚ), 0)
    else ((segVar sv 1 i : ℚ), 1)
  | i, j + 2 =>
    if i ≤ 1 then (⊤, 0)
    else scanUpto sv (fun m => (dpCell sv m (j + 1)).1) i (i - 1)

/-- The boundary values appended by the backtracking loop (viz.py
lines 83-87) when the classes `j, j-1, …, 2` remain to be processed
and `backtrack_end = e`:
`start_idx = int(class_start_index[backtrack_end, class_idx])`,
append `sorted_values[start_idx - 1]`, set `backtrack_end = start_idx - 1`. -/
def backtrackFrom (sv : List ℚ) (n : ℕ) : ℕ → ℤ → List ℚ
  | 0, _ => []
  | 1, _ => []
  | j + 2, e =>
    pyGet sv (((dpCell sv (pyRow n e) (j + 2)).2 : ℤ) - 1) ::
      backtrackFrom sv n (j + 1) (((dpCell sv (pyRow n e) (j + 2)).2 : ℤ) - 1)

/-- The function `jenks_breaks(data, n_classes)` of viz.py lines 19-91.
Sorting `sorted(data)` is the ascending sorted permutation, which for
rationals is the unique `≤`-sorted list with the same multiset, here
produced by `insertionSort`.  When `n_values ≤ n_classes` the sorted
values are returned as-is (line 37).  Otherwise the base-case write
`min_within_class_variance[1, 1] = 0` (line 44) is in bounds only when
the table has at least two columns, i.e. `1 ≤ n_classes` (the row is
always in bounds since `n_values > n_classes ≥ 0` gives at least two
rows); with `n_classes < 1` Python raises `IndexError`, modelled as
`none`.  The breaks list starts with `sorted_values[-1]` (line 81),
gains one entry per backtracking iteration (lines 83-87), ends with
`sorted_values[0]` (line 89), and `sorted(set(breaks))` (line 91) is
the ascending sorted list of the distinct break values. -/
def jenks_breaks (data : List ℚ) (nClasses : ℕ) : Option (List ℚ) :=
  if (data.insertionSort (· ≤ ·)).length ≤ nClasses then
    some (data.insertionSort (· ≤ ·))
  else if nClasses < 1 then none
  else
    some ((pyGet (data.insertionSort (· ≤ ·)) (-1) ::
      (backtrackFrom (data.insertionSort (· ≤ ·))
          (data.insertionSort (· ≤ ·)).length nClasses
          ((data.insertionSort (· ≤ ·)).length : ℤ) ++
        [pyGet (data.insertionSort (· ≤ ·)) 0])).dedup.insertionSort (· ≤ ·))

/-- Return value of `style_function` (viz.py lines 170-175): the dict
`{"fillColor": …, "color": …, "weight": …, "fillOpacity": …}`. -/
structure StyleSpec where
  fillColor : String
  color : String
  weight : ℚ
  fillOpacity : ℚ

/-- The per-feature `style_function` of `create_hex_grid_map` (viz.py
lines 165-175), with the feature's value already extracted and the
`colormap` collaborator passed as an opaque function parameter:
`ratio = (value - min_val) / (max_val - min_val) if max_val > min_val else 0`,
`opacity = 0.4 + ratio * 0.5`, `weight = 0.3 + ratio * 1.2`, and the
stroke color is the literal `"#555"`. -/
def style_function (minVal maxVal : ℚ) (colormap : ℚ → String) (value : ℚ) : StyleSpec :=
  ⟨colormap value, "#555",
    0.3 + (if maxVal > minVal then (value - minVal) / (maxVal - minVal) else 0) * 1.2,
    0.4 + (if maxVal > minVal then (value - minVal) / (maxVal - minVal) else 0) * 0.5⟩

/-- Safety of the backtracking loop started with classes `j, …, 2`
remaining and `backtrack_end = e`: every table lookup
`class_start_index[backtrack_end, class_idx]` it performs is at a row
`2 ≤ backtrack_end ≤ n` and column `class_idx ≥ 2` — a cell the
forward pass wrote — and reads a value in `[class_idx, backtrack_end]`,
so the 0-based index `start_idx - 1` used to read `sorted_values` lies
in `[0, n - 1]`. -/
def btSafe (sv : List ℚ) (n : ℕ) : ℕ → ℤ → Prop
  | 0, _ => True
  | 1, _ => True
  | j + 2, e =>
    2 ≤ e ∧ e ≤ (n : ℤ) ∧ ((j : ℤ) + 2) ≤ e ∧
    j + 2 ≤ (dpCell sv (pyRow n e) (j + 2)).2 ∧
    ((dpCell sv (pyRow n e) (j + 2)).2 : ℤ) ≤ e ∧
    0 ≤ ((dpCell sv (pyRow n e) (j + 2)).2 : ℤ) - 1 ∧
    ((dpCell sv (pyRow n e) (j + 2)).2 : ℤ) - 1 ≤ (n : ℤ) - 1 ∧
    btSafe sv n (j + 1) (((dpCell sv (pyRow n e) (j + 2)).2 : ℤ) - 1)

/-! ### General lemmas about the passthrough branch and the style mapper -/

theorem jenks_breaks_nil (k : ℕ) : jenks_breaks [] k = some [] := by
  simp [jenks_breaks]

theorem jenks_breaks_zero_classes (data : List ℚ) (hd : data ≠ []) :
    jenks_breaks data 0 = none := by
  have hl : (data.insertionSort (· ≤ ·)).length = data.length :=
    List.length_insertionSort _ _
  have hpos : 0 < data.length := List.length_pos.mpr hd
  unfold jenks_breaks
  rw [if_neg (by omega), if_pos (by omega)]

/-- C2 (amended): with `n ≤ k` the passthrough branch returns the input
sorted ascending with duplicates retained. -/
theorem passthrough_result (data : List ℚ) (k : ℕ) (h : data.length ≤ k) :
    ∃ bs, jenks_breaks data k = some bs ∧ bs.Perm data ∧ List.Sorted (· ≤ ·) bs := by
  refine ⟨data.insertionSort (· ≤ ·), ?_, List.perm_insertionSort _ _,
    List.sorted_insertionSort _ _⟩
  unfold jenks_breaks
  rw [if_pos (by rw [List.length_insertionSort]; exact h)]

theorem ratio_nonneg (mn mx v : ℚ) (hlt : mn < mx) (h1 : mn ≤ v) :
    0 ≤ (v - mn) / (mx - mn) :=
  div_nonneg (by linarith) (by linarith)

theorem ratio_le_one (mn mx v : ℚ) (hlt : mn < mx) (h2 : v ≤ mx) :
    (v - mn) / (mx - mn) ≤ 1 := by
  rw [div_le_one (by linarith)]; linarith

/-- C6: with a non-degenerate range, opacity is `0.4 + ratio * 0.5` in
`[0.4, 0.9]`, stroke weight is `0.3 + ratio * 1.2` in `[0.3, 1.5]`, and
both are monotone non-decreasing in the value. -/
theorem style_bounds_mono (mn mx v v₁ v₂ : ℚ) (cmap : ℚ → String)
    (hlt : mn < mx) (h1 : mn ≤ v) (h2 : v ≤ mx) (h12 : v₁ ≤ v₂) :
    (style_function mn mx cmap v).fillOpacity = 0.4 + (v - mn) / (mx - mn) * 0.5 ∧
    0.4 ≤ (style_function mn mx cmap v).fillOpacity ∧
    (style_function mn mx cmap v).fillOpacity ≤ 0.9 ∧
    (style_function mn mx cmap v).weight = 0.3 + (v - mn) / (mx - mn) * 1.2 ∧
    0.3 ≤ (style_function mn mx cmap v).weight ∧
    (style_function mn mx cmap v).weight ≤ 1.5 ∧
    (style_function mn mx cmap v₁).fillOpacity ≤ (style_function mn mx cmap v₂).fillOpacity ∧
    (style_function mn mx cmap v₁).weight ≤ (style_function mn mx cmap v₂).weight := by
  have hpos : (0 : ℚ) < mx - mn := by linarith
  have hr0 := ratio_nonneg mn mx v hlt h1
  have hr1 := ratio_le_one mn mx v hlt h2
  have hmono : (v₁ - mn) / (mx - mn) ≤ (v₂ - mn) / (mx - mn) := by
    apply div_le_div_of_nonneg_right (by linarith) hpos.le
  have hop : ∀ w : ℚ, (style_function mn mx cmap w).fillOpacity
      = 0.4 + (w - mn) / (mx - mn) * 0.5 := by
    intro w; simp [style_function, hlt]
  have hwt : ∀ w : ℚ, (style_function mn mx cmap w).weight
      = 0.3 + (w - mn) / (mx - mn) * 1.2 := by
    intro w; simp [style_function, hlt]
  rw [hop, hop, hop, hwt, hwt, hwt]
  refine ⟨rfl, by nlinarith, by nlinarith, rfl, by nlinarith, by nlinarith, ?_, ?_⟩ <;>
    nlinarith

theorem style_bounds_mono_witness :
    ((0 : ℚ) < 1 ∧ (0 : ℚ) ≤ 1/2 ∧ (1/2 : ℚ) ≤ 1 ∧ (0 : ℚ) ≤ 1) ∧
    ((style_function 0 1 (fun _ => "") (1/2)).fillOpacity
        = 0.4 + ((1/2 : ℚ) - 0) / (1 - 0) * 0.5 ∧
      0.4 ≤ (style_function 0 1 (fun _ => "") (1/2)).fillOpacity ∧
      (style_function 0 1 (fun _ => "") (1/2)).fillOpacity ≤ 0.9 ∧
      (style_function 0 1 (fun _ => "") (1/2)).weight
        = 0.3 + ((1/2 : ℚ) - 0) / (1 - 0) * 1.2 ∧
      0.3 ≤ (style_function 0 1 (fun _ => "") (1/2)).weight ∧
      (style_function 0 1 (fun _ => "") (1/2)).weight ≤ 1.5 ∧
      (style_function 0 1 (fun _ => "") 0).fillOpacity
        ≤ (style_function 0 1 (fun _ => "") 1).fillOpacity ∧
      (style_function 0 1 (fun _ => "") 0).weight
        ≤ (style_function 0 1 (fun _ => "") 1).weight) :=
  ⟨⟨by norm_num, by norm_num, by norm_num, by norm_num⟩,
    style_bounds_mono 0 1 (1/2) 0 1 (fun _ => "")
      (by norm_num) (by norm_num) (by norm_num) (by norm_num)⟩

/-- C7: with a degenerate range (`global_max = global_min`) the ratio is
forced to 0 and every value styles to opacity `0.4`, weight `0.3`; the
guard makes this a defined case, not an error. -/
theorem style_degenerate (mn v : ℚ) (cmap : ℚ → String) :
    (style_function mn mn cmap v).fillOpacity = 0.4 ∧
    (style_function mn mn cmap v).weight = 0.3 := by
  simp [style_function]

/-- C8 (counterexample): the stroke color constant in the code is the
string `"#555"`, not `"#555555"`. -/
theorem stroke_color_not_six_digit :
    (style_function 0 1 (fun _ => "") 0).color = "#555" ∧
    (style_function 0 1 (fun _ => "") 0).color ≠ "#555555" :=
  ⟨rfl, by decide⟩

/-- C8 (amended): the stroke color field is the fixed constant string
`"#555"` (three-digit shorthand for the same grey), independent of the
value, the range and the colormap. -/
theorem stroke_color_const (mn mx v : ℚ) (cmap : ℚ → String) :
    (style_function mn mx cmap v).color = "#555" := rfl

/-- C9: `jenks_breaks` is a pure function of its two arguments — equal
inputs give equal outputs. -/
theorem jenks_breaks_deterministic (d₁ d₂ : List ℚ) (k₁ k₂ : ℕ)
    (hd : d₁ = d₂) (hk : k₁ = k₂) : jenks_breaks d₁ k₁ = jenks_breaks d₂ k₂ := by
  rw [hd, hk]

theorem jenks_breaks_deterministic_witness :
    ([5, 1, 5] : List ℚ) = [5, 1, 5] ∧ (2 : ℕ) = 2 ∧
    jenks_breaks [5, 1, 5] 2 = jenks_breaks [5, 1, 5] 2 :=
  ⟨rfl, rfl, jenks_breaks_deterministic [5, 1, 5] [5, 1, 5] 2 2 rfl rfl⟩


/-! ### Concrete runs of the dynamic program -/

theorem sortC1 : ([1,2,3,10,11,12,50] : List ℚ).insertionSort (· ≤ ·) = [1,2,3,10,11,12,50] := by
  norm_num [List.insertionSort, List.orderedInsert]

theorem cell_a1 : (dpCell [1,2,3,10,11,12,50] 1 1).1 = ((0:ℚ) : WithTop ℚ) := by
  norm_num [dpCell]
theorem cell_a2 : (dpCell [1,2,3,10,11,12,50] 2 1).1 = ((1/2:ℚ) : WithTop ℚ) := by
  norm_num [dpCell, segVar, segSum, segSumSq, valAt, List.range']
theorem cell_a3 : (dpCell [1,2,3,10,11,12,50] 3 1).1 = ((2:ℚ) : WithTop ℚ) := by
  norm_num [dpCell, segVar, segSum, segSumSq, valAt, List.range']
theorem cell_a4 : (dpCell [1,2,3,10,11,12,50] 4 1).1 = ((50:ℚ) : WithTop ℚ) := by
  norm_num [dpCell, segVar, segSum, segSumSq, valAt, List.range']
theorem cell_a5 : (dpCell [1,2,3,10,11,12,50] 5 1).1 = ((446/5:ℚ) : WithTop ℚ) := by
  norm_num [dpCell, segVar, segSum, segSumSq, valAt, List.range']
theorem cell_b1 : (dpCell [1,2,3,10,11,12,50] 1 2).1 = (⊤ : WithTop ℚ) := by
  norm_num [dpCell]
theorem cell_b2 : (dpCell [1,2,3,10,11,12,50] 2 2).1 = ((0:ℚ) : WithTop ℚ) := by
  norm_num [dpCell, scanUpto, scanStep, segVar, segSum, segSumSq, valAt, List.range',
    ← WithTop.coe_add, ← WithTop.coe_ofNat, ← WithTop.coe_one, ← WithTop.coe_zero, WithTop.coe_le_coe, WithTop.coe_inj, cell_a1]
theorem cell_b3 : (dpCell [1,2,3,10,11,12,50] 3 2).1 = ((1/2:ℚ) : WithTop ℚ) := by
  norm_num [dpCell, scanUpto, scanStep, segVar, segSum, segSumSq, valAt, List.range',
    ← WithTop.coe_add, ← WithTop.coe_ofNat, ← WithTop.coe_one, ← WithTop.coe_zero, WithTop.coe_le_coe, WithTop.coe_inj, cell_a1, cell_a2]
theorem cell_b4 : (dpCell [1,2,3,10,11,12,50] 4 2).1 = ((2:ℚ) : WithTop ℚ) := by
  norm_num [dpCell, scanUpto, scanStep, segVar, segSum, segSumSq, valAt, List.range',
    ← WithTop.coe_add, ← WithTop.coe_ofNat, ← WithTop.coe_one, ← WithTop.coe_zero, WithTop.coe_le_coe, WithTop.coe_inj, cell_a1, cell_a2, cell_a3]
theorem cell_b5 : (dpCell [1,2,3,10,11,12,50] 5 2).1 = ((5/2:ℚ) : WithTop ℚ) := by
  norm_num [dpCell, scanUpto, scanStep, segVar, segSum, segSumSq, valAt, List.range',
    ← WithTop.coe_add, ← WithTop.coe_ofNat, ← WithTop.coe_one, ← WithTop.coe_zero, WithTop.coe_le_coe, WithTop.coe_inj, cell_a1, cell_a2, cell_a3, cell_a4]
theorem cell_b6 : dpCell [1,2,3,10,11,12,50] 6 2 = (((4:ℚ) : WithTop ℚ), 4) := by
  norm_num [dpCell, scanUpto, scanStep, segVar, segSum, segSumSq, valAt, List.range',
    ← WithTop.coe_add, ← WithTop.coe_ofNat, ← WithTop.coe_one, ← WithTop.coe_zero, WithTop.coe_le_coe, WithTop.coe_inj, cell_a1, cell_a2, cell_a3, cell_a4, cell_a5]
theorem cell_c7 : dpCell [1,2,3,10,11,12,50] 7 3 = (((4:ℚ) : WithTop ℚ), 7) := by
  norm_num [dpCell, scanUpto, scanStep, segVar, segSum, segSumSq, valAt, List.range',
    ← WithTop.coe_add, ← WithTop.coe_ofNat, ← WithTop.coe_one, ← WithTop.coe_zero, WithTop.coe_le_coe, WithTop.coe_inj,
    cell_b1, cell_b2, cell_b3, cell_b4, cell_b5, cell_b6]
theorem backtrackC1 : backtrackFrom [1,2,3,10,11,12,50] 7 3 7 = [50, 10] := by
  norm_num [backtrackFrom, pyRow, pyGet, Int.toNat, cell_c7, cell_b6]
theorem jenksC1_value : jenks_breaks [1,2,3,10,11,12,50] 3 = some [1, 10, 50] := by
  rw [jenks_breaks, sortC1]
  norm_num [backtrackC1, pyGet, List.dedup, List.insertionSort, List.orderedInsert]

/-- C1 (counterexample): on `[1, 2, 3, 10, 11, 12, 50]` with `k = 3`
the solver returns `[1, 10, 50]`, not the claimed `[1, 3, 12, 50]`. -/
theorem jenksC1_not_claimed_boundaries :
    jenks_breaks [1, 2, 3, 10, 11, 12, 50] 3 = some [1, 10, 50] ∧
    jenks_breaks [1, 2, 3, 10, 11, 12, 50] 3 ≠ some [1, 3, 12, 50] :=
  ⟨jenksC1_value, by rw [jenksC1_value]; decide⟩

/-- C1 (amended): on `[1, 2, 3, 10, 11, 12, 50]` with `k = 3` the
result is `[1, 10, 50]`; the optimal partition found by the DP starts
class 3 at sorted position 7 and class 2 at sorted position 4 — the
clusters `{1,2,3}`, `{10,11,12}`, `{50}` — and the backtracking step
emits, for each class `j` from `k` down to `2`, the sorted value AT
the 1-based start of class `j` (the first element of that class):
`sorted_values[7] = 50` and `sorted_values[4] = 10` in 1-based terms. -/
theorem jenksC1_boundaries :
    jenks_breaks [1, 2, 3, 10, 11, 12, 50] 3 = some [1, 10, 50] ∧
    (dpCell [1, 2, 3, 10, 11, 12, 50] 7 3).2 = 7 ∧
    (dpCell [1, 2, 3, 10, 11, 12, 50] 6 2).2 = 4 ∧
    backtrackFrom [1, 2, 3, 10, 11, 12, 50] 7 3 7 =
      [valAt [1, 2, 3, 10, 11, 12, 50] 7, valAt [1, 2, 3, 10, 11, 12, 50] 4] := by
  refine ⟨jenksC1_value, ?_, ?_, ?_⟩
  · rw [cell_c7]
  · rw [cell_b6]
  · rw [backtrackC1]; norm_num [valAt]

theorem cellz_a2 : (dpCell [0, 0, 0] 2 1).1 = ((0 : ℚ) : WithTop ℚ) := by
  norm_num [dpCell, segVar, segSum, segSumSq, valAt, List.range']

theorem segVarz : segVar [0, 0, 0] 3 3 = 0 := by
  norm_num [segVar, segSum, segSumSq, valAt, List.range']

theorem cellz32 : dpCell [0, 0, 0] 3 2 = (((0 : ℚ) : WithTop ℚ), 2) := by
  norm_num [dpCell, scanUpto, scanStep, segVar, segSum, segSumSq, valAt, List.range',
    ← WithTop.coe_add, ← WithTop.coe_ofNat, ← WithTop.coe_one, ← WithTop.coe_zero,
    WithTop.coe_le_coe, WithTop.coe_inj]

/-- C5 (counterexample): in the cell `(3, 2)` on data `[0, 0, 0]` the
scan sees segment start 3 first and segment start 2 second; the
first-seen candidate already equals the cell's final minimum, yet the
retained class start is 2 — the later tied candidate, not the first. -/
theorem tie_keeps_last_candidate :
    ((segVar [0, 0, 0] 3 3 : ℚ) : WithTop ℚ) + (dpCell [0, 0, 0] 2 1).1
      = (dpCell [0, 0, 0] 3 2).1 ∧
    (dpCell [0, 0, 0] 3 2).2 = 2 ∧ (dpCell [0, 0, 0] 3 2).2 ≠ 3 := by
  rw [segVarz, cellz_a2, cellz32]
  norm_num

/-- C5 (amended): ties are broken in favor of the LAST-found candidate:
the `>=` comparison replaces the incumbent on a tie, so when the
incumbent minimum equals the candidate the step stores the new
candidate's variance and segment start. -/
theorem scanStep_tie_replaces (sv : List ℚ) (prev : ℕ → WithTop ℚ) (i s : ℕ)
    (st : WithTop ℚ × ℕ)
    (h : st.1 = ((segVar sv s i : ℚ) : WithTop ℚ) + prev (s - 1)) :
    scanStep sv prev i st s = (((segVar sv s i : ℚ) : WithTop ℚ) + prev (s - 1), s) := by
  simp [scanStep, h]

theorem scanStep_tie_replaces_witness :
    (((0 : WithTop ℚ), 5) : WithTop ℚ × ℕ).1
        = ((segVar [] 1 1 : ℚ) : WithTop ℚ) + (fun _ : ℕ => (0 : WithTop ℚ)) (1 - 1) ∧
    scanStep [] (fun _ => (0 : WithTop ℚ)) 1 ((0 : WithTop ℚ), 5) 1
      = (((segVar [] 1 1 : ℚ) : WithTop ℚ) + (fun _ : ℕ => (0 : WithTop ℚ)) (1 - 1), 1) := by
  have h : (((0 : WithTop ℚ), 5) : WithTop ℚ × ℕ).1
      = ((segVar [] 1 1 : ℚ) : WithTop ℚ) + (fun _ : ℕ => (0 : WithTop ℚ)) (1 - 1) := by
    norm_num [segVar, segSum, segSumSq, valAt, List.range']
  exact ⟨h, scanStep_tie_replaces [] (fun _ => (0 : WithTop ℚ)) 1 1 ((0 : WithTop ℚ), 5) h⟩

/-- C2 (counterexample): the passthrough branch keeps duplicates:
`[5, 5, 5, 5]` with `k = 5` yields `[5, 5, 5, 5]`, not `[5]`. -/
theorem passthrough_keeps_duplicates :
    jenks_breaks [5, 5, 5, 5] 5 = some [5, 5, 5, 5] ∧
    jenks_breaks [5, 5, 5, 5] 5 ≠ some [5] := by
  have h : jenks_breaks [5, 5, 5, 5] 5 = some [5, 5, 5, 5] := by
    norm_num [jenks_breaks, List.insertionSort, List.orderedInsert]
  exact ⟨h, by rw [h]; decide⟩

theorem passthrough_result_witness :
    ([5, 5, 5, 5] : List ℚ).length ≤ 5 ∧
    ∃ bs, jenks_breaks [5, 5, 5, 5] 5 = some bs ∧ bs.Perm [5, 5, 5, 5] ∧
      List.Sorted (· ≤ ·) bs :=
  ⟨by simp, passthrough_result [5, 5, 5, 5] 5 (by simp)⟩

/-- C4 (counterexample): an empty value series does not fail — the
passthrough branch returns the normal result `some []`. -/
theorem empty_series_returns_normally :
    jenks_breaks ([] : List ℚ) 5 = some [] ∧ jenks_breaks ([] : List ℚ) 5 ≠ none :=
  ⟨jenks_breaks_nil 5, by rw [jenks_breaks_nil 5]; simp⟩

/-- C4 (amended): `jenks_breaks` performs no input validation: an empty
series returns `some []` for every `k` (no failure), while `k = 0` on a
non-empty series makes the base-case table write out of bounds and
fails (IndexError), returning no partial result. -/
theorem no_input_validation :
    (∀ k, jenks_breaks ([] : List ℚ) k = some []) ∧
    (∀ data : List ℚ, data ≠ [] → jenks_breaks data 0 = none) :=
  ⟨jenks_breaks_nil, jenks_breaks_zero_classes⟩

theorem no_input_validation_witness :
    jenks_breaks ([] : List ℚ) 3 = some [] ∧
    (([7] : List ℚ) ≠ [] ∧ jenks_breaks [7] 0 = none) :=
  ⟨no_input_validation.1 3, by simp, no_input_validation.2 [7] (by simp)⟩

/-! ### Invariants of the forward dynamic program -/

theorem scanUpto_fst_top (sv : List ℚ) (prev : ℕ → WithTop ℚ) (i : ℕ)
    (hp : ∀ m, m ≤ i - 1 → prev m = ⊤) :
    ∀ t, (scanUpto sv prev i t).1 = ⊤ := by
  intro t
  induction t with
  | zero => rfl
  | succ t ih =>
    simp only [scanUpto, scanStep]
    rw [hp (i - t - 1) (by omega), WithTop.add_top, ih]
    simp

theorem scanUpto_fst_mono (sv : List ℚ) (prev : ℕ → WithTop ℚ) (i : ℕ) (t : ℕ) :
    (scanUpto sv prev i (t + 1)).1 ≤ (scanUpto sv prev i t).1 := by
  simp only [scanUpto, scanStep]
  split
  · next h => exact h
  · exact le_refl _

theorem scanUpto_fst_le_one (sv : List ℚ) (prev : ℕ → WithTop ℚ) (i : ℕ) :
    ∀ t, 1 ≤ t → (scanUpto sv prev i t).1 ≤ (scanUpto sv prev i 1).1 := by
  intro t
  induction t with
  | zero => omega
  | succ t ih =>
    intro _
    rcases Nat.eq_zero_or_pos t with ht | ht
    · subst ht; exact le_refl _
    · exact le_trans (scanUpto_fst_mono sv prev i t) (ih ht)

theorem scanUpto_one (sv : List ℚ) (prev : ℕ → WithTop ℚ) (i : ℕ) :
    scanUpto sv prev i 1 = (((segVar sv i i : ℚ) : WithTop ℚ) + prev (i - 1), i) := by
  simp only [scanUpto, scanStep, Nat.sub_zero]
  simp [le_top]

/-- The minimum-variance entry of the table is finite exactly when the
first `i` sorted values can be split into `j` nonempty classes, i.e.
`j ≤ i`: the scan of cell `(i, j)` finds a finite candidate exactly
when some previous cell `(s - 1, j - 1)` is finite. -/
theorem dpCell_fst_ne_top (sv : List ℚ) :
    ∀ j, 1 ≤ j → ∀ i, ((dpCell sv i j).1 ≠ ⊤ ↔ j ≤ i) := by
  intro j
  induction j with
  | zero => omega
  | succ j ih =>
    intro _ i
    cases j with
    | zero =>
      simp only [dpCell]
      split_ifs with h0 h1
      · simp [h0]
      · simp [h1]
      · simp [WithTop.coe_ne_top]; omega
    | succ j' =>
      have ihX := ih (by omega)
      simp only [dpCell]
      split_ifs with hi
      · simp; omega
      · constructor
        · intro hne
          by_contra hlt
          push_neg at hlt
          apply hne
          apply scanUpto_fst_top
          intro m hm
          have hnot : ¬ (j' + 1 ≤ m) := by omega
          exact not_ne_iff.mp (fun hx => hnot ((ihX m).mp hx))
        · intro hle
          have h1 : (scanUpto sv (fun m => (dpCell sv m (j' + 1)).1) i 1).1 ≠ ⊤ := by
            rw [scanUpto_one]
            exact WithTop.add_ne_top.mpr
              ⟨WithTop.coe_ne_top, (ihX (i - 1)).mpr (by omega)⟩
          exact ne_top_of_le_ne_top h1
            (scanUpto_fst_le_one sv _ i (i - 1) (by omega))

theorem scanUpto_snd_range (sv : List ℚ) (prev : ℕ → WithTop ℚ) (i J : ℕ)
    (hJ : ∀ m, prev m ≠ ⊤ ↔ J ≤ m) (hi : J + 1 ≤ i) :
    ∀ t, 1 ≤ t → t ≤ i - 1 →
      (scanUpto sv prev i t).1 ≠ ⊤ ∧
      J + 1 ≤ (scanUpto sv prev i t).2 ∧ (scanUpto sv prev i t).2 ≤ i := by
  intro t
  induction t with
  | zero => omega
  | succ t ih =>
    intro _ hle
    rcases Nat.eq_zero_or_pos t with ht | ht
    · subst ht
      rw [scanUpto_one]
      refine ⟨?_, by omega, by omega⟩
      exact WithTop.add_ne_top.mpr ⟨WithTop.coe_ne_top, (hJ (i - 1)).mpr (by omega)⟩
    · have ihh := ih ht (by omega)
      simp only [scanUpto, scanStep]
      split
      · next h =>
        have hcne : ((segVar sv (i - t) i : ℚ) : WithTop ℚ) + prev (i - t - 1) ≠ ⊤ :=
          ne_top_of_le_ne_top ihh.1 h
        have hpne : prev (i - t - 1) ≠ ⊤ := (WithTop.add_ne_top.mp hcne).2
        have hJle : J ≤ i - t - 1 := (hJ (i - t - 1)).mp hpne
        exact ⟨hcne, by omega, by omega⟩
      · exact ihh

/-- The class start recorded by the forward pass for a feasible cell
(`2 ≤ j ≤ i`) lies in `[j, i]`. -/
theorem dpCell_snd_range (sv : List ℚ) (j i : ℕ) (hj : 2 ≤ j) (hij : j ≤ i) :
    j ≤ (dpCell sv i j).2 ∧ (dpCell sv i j).2 ≤ i := by
  obtain ⟨j', rfl⟩ : ∃ j', j = j' + 2 := ⟨j - 2, by omega⟩
  have hJ : ∀ m, (dpCell sv m (j' + 1)).1 ≠ ⊤ ↔ j' + 1 ≤ m :=
    dpCell_fst_ne_top sv (j' + 1) (by omega)
  simp only [dpCell, if_neg (by omega : ¬ i ≤ 1)]
  have h := scanUpto_snd_range sv (fun m => (dpCell sv m (j' + 1)).1) i (j' + 1)
    hJ (by omega) (i - 1) (by omega) (by omega)
  exact ⟨h.2.1, h.2.2⟩

theorem pyRow_of_nonneg (n : ℕ) (e : ℤ) (he : 0 ≤ e) : pyRow n e = e.toNat := by
  rw [pyRow, if_neg (by omega)]

theorem btSafe_holds (sv : List ℚ) (n : ℕ) :
    ∀ (j : ℕ) (e : ℤ), 2 ≤ e → e ≤ (n : ℤ) → (j : ℤ) ≤ e → btSafe sv n j e := by
  intro j
  induction j with
  | zero => intro e _ _ _; trivial
  | succ j ih =>
    intro e he2 hen hje
    cases j with
    | zero => trivial
    | succ j' =>
      have hrow : pyRow n e = e.toNat := pyRow_of_nonneg n e (by omega)
      have hcs := dpCell_snd_range sv (j' + 2) e.toNat (by omega) (by omega)
      simp only [btSafe, hrow]
      obtain ⟨hcs1, hcs2⟩ := hcs
      refine ⟨he2, hen, by omega, hcs1, by omega, by omega, by omega, ?_⟩
      cases j' with
      | zero => trivial
      | succ j'' =>
        apply ih
        · omega
        · omega
        · push_cast; omega

/-- C10: with `1 ≤ k < n`, the backtracking loop started at
`(backtrack_end, class_idx) = (n, k)` only ever reads table cells the
forward pass wrote (row `2 ≤ backtrack_end ≤ n`, column
`class_idx ≥ 2`), each holding a class start in
`[class_idx, backtrack_end]`, so every 0-based index used to read
`sorted_values` inside the loop lies in `[0, n - 1]`. -/
theorem backtrack_lookups_safe (data : List ℚ) (k : ℕ)
    (hk : 1 ≤ k) (hkn : k < (data.insertionSort (· ≤ ·)).length) :
    btSafe (data.insertionSort (· ≤ ·)) (data.insertionSort (· ≤ ·)).length k
      ((data.insertionSort (· ≤ ·)).length : ℤ) := by
  rcases k with _ | _ | k
  · omega
  · trivial
  · exact btSafe_holds (data.insertionSort (· ≤ ·))
      (data.insertionSort (· ≤ ·)).length (k + 2)
      ((data.insertionSort (· ≤ ·)).length : ℤ)
      (by omega) (by omega) (by push_cast; omega)

theorem backtrack_lookups_safe_witness :
    (1 : ℕ) ≤ 2 ∧ 2 < (([1, 2, 3] : List ℚ).insertionSort (· ≤ ·)).length ∧
    btSafe (([1, 2, 3] : List ℚ).insertionSort (· ≤ ·))
      (([1, 2, 3] : List ℚ).insertionSort (· ≤ ·)).length 2
      ((([1, 2, 3] : List ℚ).insertionSort (· ≤ ·)).length : ℤ) :=
  ⟨by norm_num, by simp [List.length_insertionSort],
    backtrack_lookups_safe [1, 2, 3] 2 (by norm_num)
      (by simp [List.length_insertionSort])⟩

/-! ### The returned breaks are sorted and bounded by min and max -/

theorem pyGet_mem (sv : List ℚ) (idx : ℤ) (h0 : 0 ≤ idx)
    (hlt : idx < (sv.length : ℤ)) : pyGet sv idx ∈ sv := by
  rw [pyGet, if_neg (by omega)]
  have h : idx.toNat < sv.length := by omega
  rw [List.getD_eq_getElem sv 0 h]
  exact List.getElem_mem h

theorem pyGet_neg_one (sv : List ℚ) (h : sv ≠ []) :
    pyGet sv (-1) = sv.getLast h := by
  have hl : 0 < sv.length := List.length_pos.mpr h
  rw [pyGet, if_pos (by norm_num)]
  rw [show ((-(-1 : ℤ)).toNat) = 1 by norm_num [Int.toNat]]
  rw [List.getD_eq_getElem sv 0 (by omega), List.getLast_eq_getElem]

theorem pyGet_zero (sv : List ℚ) (h : sv ≠ []) : pyGet sv 0 = sv.head h := by
  have hl : 0 < sv.length := List.length_pos.mpr h
  rw [pyGet, if_neg (by norm_num)]
  rw [show ((0 : ℤ)).toNat = 0 from rfl, List.getD_eq_getElem sv 0 (by omega)]
  exact List.getElem_zero hl

theorem sorted_head_le (l : List ℚ) (hs : List.Sorted (· ≤ ·) l) (x : ℚ)
    (hx : x ∈ l) (h : l ≠ []) : l.head h ≤ x := by
  cases l with
  | nil => exact absurd rfl h
  | cons a t =>
    rcases List.mem_cons.mp hx with rfl | hxt
    · exact le_refl _
    · exact (List.sorted_cons.mp hs).1 x hxt

theorem sorted_le_getLast (l : List ℚ) (hs : List.Sorted (· ≤ ·) l) (x : ℚ)
    (hx : x ∈ l) (h : l ≠ []) : x ≤ l.getLast h := by
  induction l with
  | nil => exact absurd rfl h
  | cons a t ih =>
    cases t with
    | nil =>
      rw [List.mem_singleton] at hx
      subst hx
      exact le_refl _
    | cons b t2 =>
      rw [List.getLast_cons (by simp)]
      rcases List.mem_cons.mp hx with rfl | hxt
      · exact (List.sorted_cons.mp hs).1 _ (List.getLast_mem (by simp))
      · exact ih (List.sorted_cons.mp hs).2 hxt (by simp)

theorem head?_eq_of_min (l : List ℚ) (hs : List.Sorted (· ≤ ·) l) (a : ℚ)
    (ha : a ∈ l) (hmin : ∀ x ∈ l, a ≤ x) : l.head? = some a := by
  have hne : l ≠ [] := List.ne_nil_of_mem ha
  rw [List.head?_eq_head hne]
  exact congrArg some (le_antisymm
    (sorted_head_le l hs a ha hne) (hmin _ (List.head_mem hne)))

theorem getLast?_eq_of_max (l : List ℚ) (hs : List.Sorted (· ≤ ·) l) (a : ℚ)
    (ha : a ∈ l) (hmax : ∀ x ∈ l, x ≤ a) : l.getLast? = some a := by
  have hne : l ≠ [] := List.ne_nil_of_mem ha
  rw [List.getLast?_eq_getLast l hne]
  exact congrArg some (le_antisymm
    (hmax _ (List.getLast_mem hne)) (sorted_le_getLast l hs a ha hne))

theorem backtrackFrom_subset (sv : List ℚ) (n : ℕ) (hn : sv.length = n) :
    ∀ (j : ℕ) (e : ℤ), 2 ≤ e → e ≤ (n : ℤ) → (j : ℤ) ≤ e →
      ∀ x ∈ backtrackFrom sv n j e, x ∈ sv := by
  intro j
  induction j with
  | zero => intro e _ _ _ x hx; simp [backtrackFrom] at hx
  | succ j ih =>
    intro e he2 hen hje x hx
    cases j with
    | zero => simp [backtrackFrom] at hx
    | succ j' =>
      have hrow : pyRow n e = e.toNat := pyRow_of_nonneg n e (by omega)
      have hcs := dpCell_snd_range sv (j' + 2) e.toNat (by omega) (by omega)
      simp only [backtrackFrom, hrow] at hx
      rcases List.mem_cons.mp hx with rfl | hxt
      · exact pyGet_mem sv _ (by omega) (by rw [hn]; omega)
      · cases j' with
        | zero => simp [backtrackFrom] at hxt
        | succ j'' => exact ih _ (by omega) (by omega) (by omega) x hxt

theorem jenks_breaks_dp_eq (data : List ℚ) (k : ℕ) (hk : 1 ≤ k)
    (hnk : ¬ (data.insertionSort (· ≤ ·)).length ≤ k) :
    jenks_breaks data k = some ((pyGet (data.insertionSort (· ≤ ·)) (-1) ::
      (backtrackFrom (data.insertionSort (· ≤ ·))
          (data.insertionSort (· ≤ ·)).length k
          ((data.insertionSort (· ≤ ·)).length : ℤ) ++
        [pyGet (data.insertionSort (· ≤ ·)) 0])).dedup.insertionSort (· ≤ ·)) := by
  unfold jenks_breaks
  rw [if_neg hnk, if_neg (by omega)]

theorem breaks_list_subset (data : List ℚ) (k : ℕ) (hk : 1 ≤ k)
    (hkn : k < (data.insertionSort (· ≤ ·)).length)
    (hne : data.insertionSort (· ≤ ·) ≠ []) :
    ∀ x ∈ (pyGet (data.insertionSort (· ≤ ·)) (-1) ::
      (backtrackFrom (data.insertionSort (· ≤ ·))
          (data.insertionSort (· ≤ ·)).length k
          ((data.insertionSort (· ≤ ·)).length : ℤ) ++
        [pyGet (data.insertionSort (· ≤ ·)) 0])),
      x ∈ data.insertionSort (· ≤ ·) := by
  intro x hx
  rcases List.mem_cons.mp hx with rfl | hx2
  · rw [pyGet_neg_one _ hne]
    exact List.getLast_mem hne
  rcases List.mem_append.mp hx2 with hx3 | hx4
  · rcases k with _ | _ | k'
    · omega
    · simp [backtrackFrom] at hx3
    · exact backtrackFrom_subset (data.insertionSort (· ≤ ·))
        (data.insertionSort (· ≤ ·)).length rfl (k' + 2)
        ((data.insertionSort (· ≤ ·)).length : ℤ)
        (by omega) (by omega) (by push_cast; omega) x hx3
  · rw [List.mem_singleton] at hx4
    subst hx4
    rw [pyGet_zero _ hne]
    exact List.head_mem hne

/-- C3: on every non-empty input with `k ≥ 1`, `jenks_breaks` returns
normally a non-decreasing list whose first element is the minimum of
the input values and whose last element is their maximum. -/
theorem breaks_sorted_min_max (data : List ℚ) (k : ℕ)
    (hd : data ≠ []) (hk : 1 ≤ k) :
    ∃ bs, jenks_breaks data k = some bs ∧ List.Sorted (· ≤ ·) bs ∧
      ∃ m M, bs.head? = some m ∧ bs.getLast? = some M ∧
        m ∈ data ∧ M ∈ data ∧ ∀ x ∈ data, m ≤ x ∧ x ≤ M := by
  have hperm : (data.insertionSort (· ≤ ·)).Perm data := List.perm_insertionSort _ _
  have hsorted : List.Sorted (· ≤ ·) (data.insertionSort (· ≤ ·)) :=
    List.sorted_insertionSort _ _
  have hsvne : data.insertionSort (· ≤ ·) ≠ [] := by
    intro h
    have hlen := hperm.length_eq
    rw [h] at hlen
    exact hd (List.length_eq_zero.mp hlen.symm)
  have hmmem : (data.insertionSort (· ≤ ·)).head hsvne ∈ data.insertionSort (· ≤ ·) :=
    List.head_mem hsvne
  have hMmem : (data.insertionSort (· ≤ ·)).getLast hsvne ∈ data.insertionSort (· ≤ ·) :=
    List.getLast_mem hsvne
  have hmle : ∀ x ∈ data.insertionSort (· ≤ ·),
      (data.insertionSort (· ≤ ·)).head hsvne ≤ x :=
    fun x hx => sorted_head_le _ hsorted x hx hsvne
  have hleM : ∀ x ∈ data.insertionSort (· ≤ ·),
      x ≤ (data.insertionSort (· ≤ ·)).getLast hsvne :=
    fun x hx => sorted_le_getLast _ hsorted x hx hsvne
  by_cases hnk : (data.insertionSort (· ≤ ·)).length ≤ k
  · refine ⟨data.insertionSort (· ≤ ·), ?_, hsorted,
      (data.insertionSort (· ≤ ·)).head hsvne,
      (data.insertionSort (· ≤ ·)).getLast hsvne,
      List.head?_eq_head hsvne, List.getLast?_eq_getLast _ hsvne,
      hperm.mem_iff.mp hmmem, hperm.mem_iff.mp hMmem, ?_⟩
    · unfold jenks_breaks
      rw [if_pos hnk]
    · intro x hx
      exact ⟨hmle x (hperm.mem_iff.mpr hx), hleM x (hperm.mem_iff.mpr hx)⟩
  · push_neg at hnk
    have hres := jenks_breaks_dp_eq data k hk (by omega)
    have hsub := breaks_list_subset data k hk hnk hsvne
    have hbsmem : ∀ x, x ∈ ((pyGet (data.insertionSort (· ≤ ·)) (-1) ::
        (backtrackFrom (data.insertionSort (· ≤ ·))
            (data.insertionSort (· ≤ ·)).length k
            ((data.insertionSort (· ≤ ·)).length : ℤ) ++
          [pyGet (data.insertionSort (· ≤ ·)) 0])).dedup.insertionSort (· ≤ ·)) ↔
        x ∈ (pyGet (data.insertionSort (· ≤ ·)) (-1) ::
        (backtrackFrom (data.insertionSort (· ≤ ·))
            (data.insertionSort (· ≤ ·)).length k
            ((data.insertionSort (· ≤ ·)).length : ℤ) ++
          [pyGet (data.insertionSort (· ≤ ·)) 0])) := by
      intro x
      rw [(List.perm_insertionSort _ _).mem_iff, List.mem_dedup]
    refine ⟨_, hres, List.sorted_insertionSort _ _,
      (data.insertionSort (· ≤ ·)).head hsvne,
      (data.insertionSort (· ≤ ·)).getLast hsvne, ?_, ?_,
      hperm.mem_iff.mp hmmem, hperm.mem_iff.mp hMmem, ?_⟩
    · apply head?_eq_of_min _ (List.sorted_insertionSort _ _)
      · apply (hbsmem _).mpr
        have : pyGet (data.insertionSort (· ≤ ·)) 0
            = (data.insertionSort (· ≤ ·)).head hsvne := pyGet_zero _ hsvne
        rw [← this]
        simp
      · intro x hx
        exact hmle x (hsub x ((hbsmem x).mp hx))
    · apply getLast?_eq_of_max _ (List.sorted_insertionSort _ _)
      · apply (hbsmem _).mpr
        have : pyGet (data.insertionSort (· ≤ ·)) (-1)
            = (data.insertionSort (· ≤ ·)).getLast hsvne := pyGet_neg_one _ hsvne
        rw [← this]
        simp
      · intro x hx
        exact hleM x (hsub x ((hbsmem x).mp hx))
    · intro x hx
      exact ⟨hmle x (hperm.mem_iff.mpr hx), hleM x (hperm.mem_iff.mpr hx)⟩

theorem breaks_sorted_min_max_witness :
    ([3, 1, 2] : List ℚ) ≠ [] ∧ (1 : ℕ) ≤ 2 ∧
    ∃ bs, jenks_breaks [3, 1, 2] 2 = some bs ∧ List.Sorted (· ≤ ·) bs ∧
      ∃ m M, bs.head? = some m ∧ bs.getLast? = some M ∧
        m ∈ ([3, 1, 2] : List ℚ) ∧ M ∈ ([3, 1, 2] : List ℚ) ∧
        ∀ x ∈ ([3, 1, 2] : List ℚ), m ≤ x ∧ x ≤ M :=
  ⟨by simp, by norm_num, breaks_sorted_min_max [3, 1, 2] 2 (by simp) (by norm_num)⟩
